import Mathlib

/-!
Shallow embedding of `puzzle/app.py` (grid word-search puzzle).

Modelling conventions:
* a Python string is a `List Char` (`Str`);
* Python list indexing, which raises `IndexError` out of range, returns
  `Option`; computations that may raise propagate `Option`/`Except`;
* the dictionary word source (a lazy generator over a file) is an
  `Except Err (List Str)`: `.error .sourceUnavailable` stands for a source
  that raises `FileNotFoundError` as soon as it is first iterated;
* a Python `set` of strings is the insertion-order deduplicated list of the
  strings added to it (membership and cardinality agree with the set).
-/

namespace Puzzle

/-- A Python string, as its list of characters. -/
abbrev Str := List Char

/-- The exceptions the embedded code can raise: `FileNotFoundError` from
`read_words` (the spec's `SourceUnavailableError`), and `IndexError` from
out-of-range list indexing (`word[0]` on an empty word, or a grid cell
access out of bounds). -/
inductive Err where
  | sourceUnavailable
  | indexError
deriving DecidableEq

/-- The `Grid` class state: `self.grid`, `self.length`, `self.depth`
(the cached `_letters`/`_lines`/`_number` fields only memoize and are
omitted: the grid never mutates, so recomputation is observationally
identical). -/
structure Grid where
  grid : List (List Char)
  length : Nat
  depth : Nat
deriving DecidableEq

/-- `Grid.__init__(self, grid, length, depth)`: stores its three arguments
unchanged; the source performs no shape validation whatsoever. -/
def Grid.init (rows : List (List Char)) (length depth : Nat) : Grid :=
  { grid := rows, length := length, depth := depth }

/-- `self.grid[i][j]`: Python list indexing; `none` models `IndexError`. -/
def Grid.cell (g : Grid) (i j : Nat) : Option Char :=
  (g.grid[i]?).bind fun row => row[j]?

/-- `max_size`: `max(self.length, self.depth)`. -/
def Grid.max_size (g : Grid) : Nat := max g.length g.depth

/-- `letters`: `{l for l in itertools.chain(*self.grid)}` — the set of
distinct characters of the grid, as a deduplicated list. -/
def Grid.letters (g : Grid) : List Char := g.grid.flatten.dedup

/-- The loop of `horizontal_lines`: for each row append `"".join(row)` and
its reversal. -/
def hlines : List (List Char) → List Str
  | [] => []
  | row :: rest => row :: row.reverse :: hlines rest

/-- `horizontal_lines`. -/
def Grid.horizontal_lines (g : Grid) : List Str := hlines g.grid

/-- The characters of column `c` over rows `0..n-1`, top to bottom
(the `"".join([self.grid[row_index][column_index] ...])` comprehension,
cut off after `n` rows). -/
def colChars (g : Grid) (c : Nat) : Nat → Option Str
  | 0 => some []
  | n + 1 => (colChars g c n).bind fun l => (g.cell n c).map fun ch => l ++ [ch]

/-- The loop of `vertical_lines` over columns `0..n-1`: for each column
append the column string and its reversal. -/
def vertN (g : Grid) : Nat → Option (List Str)
  | 0 => some []
  | n + 1 => (vertN g n).bind fun acc =>
      (colChars g n g.depth).map fun col => acc ++ [col, col.reverse]

/-- `vertical_lines`. -/
def Grid.vertical_lines (g : Grid) : Option (List Str) := vertN g g.length

/-- One iteration of the inner loop of `diagonal_lines`, at
`column_index = i` for the given `offset`, acting on the accumulator pair
`(left_letters, right_letters)`:
at `i == 0` both accumulators get `grid[i][right_index]` (and `continue`);
otherwise `right_letters` gets `grid[i][right_index]` when
`right_index < length`, then with `left_index = right_index - 2`,
`left_letters` gets `grid[i][left_index]` when `length > left_index >= 0`. -/
def diagStep (g : Grid) (offset i : Nat) (acc : Str × Str) : Option (Str × Str) :=
  if i = 0 then
    (g.cell i (i + offset)).map fun ch => (acc.1 ++ [ch], acc.2 ++ [ch])
  else
    (if i + offset < g.length then
        (g.cell i (i + offset)).map fun ch => (acc.1, acc.2 ++ [ch])
      else some acc).bind fun acc1 =>
      if 0 ≤ (i : Int) + (offset : Int) - 2 ∧ (i : Int) + (offset : Int) - 2 < (g.length : Int) then
        (g.cell i ((i : Int) + (offset : Int) - 2).toNat).map fun ch =>
          (acc1.1 ++ [ch], acc1.2)
      else some acc1

/-- The inner loop of `diagonal_lines` over `column_index = 0..n-1`,
starting from empty accumulators. -/
def diagWalk (g : Grid) (offset : Nat) : Nat → Option (Str × Str)
  | 0 => some ([], [])
  | n + 1 => (diagWalk g offset n).bind (diagStep g offset n)

/-- After one offset's inner walk: the strings added to the `diagonals`
set, in the order the source adds them (right string and its reversal if
non-empty, then the left string and its reversal if non-empty). -/
def diagAdds (g : Grid) (offset : Nat) : Option (List Str) :=
  (diagWalk g offset g.depth).map fun acc =>
    (if acc.2 ≠ [] then [acc.2, acc.2.reverse] else []) ++
    (if acc.1 ≠ [] then [acc.1, acc.1.reverse] else [])

/-- The outer loop of `diagonal_lines` over `offset = 0..n-1`, collecting
every string added to the set, in add order, duplicates included. -/
def diagRawN (g : Grid) : Nat → Option (List Str)
  | 0 => some []
  | n + 1 => (diagRawN g n).bind fun acc => (diagAdds g n).map fun p => acc ++ p

/-- `diagonal_lines`: the resulting `set`, modelled as the insertion-order
deduplicated list of added strings. -/
def Grid.diagonal_lines (g : Grid) : Option (List Str) :=
  (diagRawN g g.length).map List.dedup

/-- `lines`: `[*vertical_lines, *horizontal_lines, *diagonal_lines]`. -/
def Grid.lines (g : Grid) : Option (List Str) :=
  g.vertical_lines.bind fun v => g.diagonal_lines.map fun d =>
    v ++ g.horizontal_lines ++ d

/-- ASCII whitespace, for `str.strip()`. -/
def isSpaceChar (c : Char) : Bool :=
  c = ' ' || c = '\t' || c = '\n' || c = '\r' || c = '\x0b' || c = '\x0c'

/-- `line.strip()`: leading and trailing whitespace removed. -/
def pstrip (s : Str) : Str :=
  ((s.dropWhile isSpaceChar).reverse.dropWhile isSpaceChar).reverse

/-- `read_words(path)`: raises `FileNotFoundError` unless the path names an
existing plain file, otherwise yields each line stripped. The filesystem is
abstracted as `fs : Str → Option (List Str)`, `some lines` exactly when the
path is an existing readable plain file with those lines. -/
def read_words (fs : Str → Option (List Str)) (path : Str) : Except Err (List Str) :=
  match fs path with
  | none => .error .sourceUnavailable
  | some ls => .ok (ls.map pstrip)

/-- `filter_by_length(words, length)`: keeps words with `len(word) <= length`. -/
def filter_by_length (words : List Str) (length : Nat) : List Str :=
  words.filter fun w => w.length ≤ length

/-- `filter_by_letters(words, letters)`: keeps words whose `word[0]` is in
`letters`; `word[0]` on an empty word raises `IndexError`. -/
def filter_by_letters : List Str → List Char → Except Err (List Str)
  | [], _ => .ok []
  | w :: ws, letters =>
    match w with
    | [] => .error .indexError
    | c :: _ =>
      (filter_by_letters ws letters).map fun rest =>
        if c ∈ letters then w :: rest else rest

/-- `"|".join(lines)`. -/
def joinSep : List Str → Str
  | [] => []
  | [l] => l
  | l :: l' :: ls => l ++ '|' :: joinSep (l' :: ls)

/-- `w` is an initial segment of `l` (helper for the substring test). -/
def beginsWith : Str → Str → Bool
  | [], _ => true
  | _ :: _, [] => false
  | a :: as, b :: bs => a = b && beginsWith as bs

/-- Python's `word in corpus` for strings: `w` occurs contiguously in `l`. -/
def occursIn (w : Str) : Str → Bool
  | [] => w.isEmpty
  | c :: ls => beginsWith w (c :: ls) || occursIn w ls

/-- `Finder.find_words(file_path)` with the word source passed as a value:
the filter generators are built lazily (nothing consumed), the
`max_size < 1` guard returns `[]` before anything runs, then the corpus
`"|".join(self.grid.lines)` is computed (any grid `IndexError` raised
here), and only then is the word pipeline consumed (a bad path's
`FileNotFoundError`, or an empty word's `IndexError`, raised here),
collecting in order the surviving words contained in the corpus. -/
def find_words (g : Grid) (source : Except Err (List Str)) : Except Err (List Str) :=
  if g.max_size < 1 then .ok []
  else
    match g.lines with
    | none => .error .indexError
    | some ls =>
      (source.bind fun ws =>
        filter_by_letters (filter_by_length ws g.max_size) g.letters).map
        fun ws2 => ws2.filter fun w => occursIn w (joinSep ls)

/-- The consumer-facing `Search`: `Finder(grid).find_words(path)` reading
the actual word source through `read_words`. -/
def search (g : Grid) (fs : Str → Option (List Str)) (path : Str) : Except Err (List Str) :=
  find_words g (read_words fs path)

/-- The grid is rectangular as declared: exactly `depth` rows, every row of
exactly `length` cells. -/
def gridRect (g : Grid) : Prop :=
  g.grid.length = g.depth ∧ ∀ row ∈ g.grid, row.length = g.length

instance (g : Grid) : Decidable (gridRect g) := by
  unfold gridRect; infer_instance

/-! ## The spec's diagonal algorithm (§4.1), stated from the spec's words

For the refinement claim about `diagonal_lines`, the spec's algorithm is
written out independently, as a total function: for each `offset` from `0`
to `width-1`, the walk over `column_index = 0..depth-1` seeds both
accumulators with `grid[0][right_index]` at `column_index == 0`, appends
`grid[column_index][right_index]` to the right accumulator when
`right_index = column_index + offset < width`, and appends
`grid[column_index][left_index]`, `left_index = right_index - 2`, to the
left accumulator when `0 <= left_index < width`; after each offset's walk
each non-empty accumulator string and its reverse joins the result set.
The `N`-suffixed versions describe the walk cut off after `n` rows. -/

/-- `grid[i][j]` as a total function; the guards of the spec's algorithm
only ever evaluate it in bounds on a rectangular grid. -/
def cellD (g : Grid) (i j : Nat) : Char := (g.grid.getD i []).getD j '?'

/-- The right accumulator of the spec's walk after rows `0..n-1`: seeded
with `grid[0][offset]`, then `grid[i][i+offset]` for each later row `i`
with `i + offset < width`. -/
def specRightN (g : Grid) (offset n : Nat) : Str :=
  if n = 0 then [] else
    cellD g 0 offset ::
      (((List.range (n - 1)).map (· + 1)).filterMap fun i =>
        if i + offset < g.length then some (cellD g i (i + offset)) else none)

/-- The left accumulator of the spec's walk after rows `0..n-1`: seeded
with `grid[0][offset]`, then `grid[i][i+offset-2]` for each later row `i`
with `0 <= i + offset - 2 < width`. -/
def specLeftN (g : Grid) (offset n : Nat) : Str :=
  if n = 0 then [] else
    cellD g 0 offset ::
      (((List.range (n - 1)).map (· + 1)).filterMap fun (i : Nat) =>
        if 0 ≤ (i : Int) + (offset : Int) - 2 ∧ (i : Int) + (offset : Int) - 2 < (g.length : Int)
        then some (cellD g i ((i : Int) + (offset : Int) - 2).toNat) else none)

/-- The spec walk's right accumulator for the full grid. -/
def specRight (g : Grid) (offset : Nat) : Str := specRightN g offset g.depth

/-- The spec walk's left accumulator for the full grid. -/
def specLeft (g : Grid) (offset : Nat) : Str := specLeftN g offset g.depth

/-- The set of strings produced by the spec's diagonal algorithm: for each
offset, each non-empty accumulator and its reverse. -/
def specDiagonal (g : Grid) : List Str :=
  (((List.range g.length).map fun offset =>
    (if specRight g offset ≠ [] then [specRight g offset, (specRight g offset).reverse] else []) ++
    (if specLeft g offset ≠ [] then [specLeft g offset, (specLeft g offset).reverse] else [])) :
    List (List Str)).flatten

/-! ## Helper lemmas: cell access on a rectangular grid -/

lemma rect_row_length (g : Grid) (hrect : gridRect g) {i : Nat}
    (hi : i < g.depth) : (g.grid.getD i []).length = g.length := by
  obtain ⟨hlen, hrow⟩ := hrect
  have hi' : i < g.grid.length := by omega
  rw [List.getD_eq_getElem g.grid [] hi']
  exact hrow _ (List.getElem_mem hi')

lemma cell_eq_some (g : Grid) (hrect : gridRect g) {i j : Nat}
    (hi : i < g.depth) (hj : j < g.length) :
    g.cell i j = some (cellD g i j) := by
  have hlen := hrect.1
  have hi' : i < g.grid.length := by omega
  have hj' : j < (g.grid[i]).length := by
    have := rect_row_length g hrect hi
    rw [List.getD_eq_getElem g.grid [] hi'] at this
    omega
  unfold Grid.cell cellD
  rw [List.getElem?_eq_getElem hi', Option.some_bind,
    List.getElem?_eq_getElem hj', List.getD_eq_getElem g.grid [] hi',
    List.getD_eq_getElem _ '?' hj']

lemma cellD_mem_flatten (g : Grid) (hrect : gridRect g) {i j : Nat}
    (hi : i < g.depth) (hj : j < g.length) :
    cellD g i j ∈ g.grid.flatten := by
  have hlen := hrect.1
  have hi' : i < g.grid.length := by omega
  have hj' : j < (g.grid[i]).length := by
    have := rect_row_length g hrect hi
    rw [List.getD_eq_getElem g.grid [] hi'] at this
    omega
  rw [List.mem_flatten]
  refine ⟨g.grid[i], List.getElem_mem hi', ?_⟩
  unfold cellD
  rw [List.getD_eq_getElem g.grid [] hi', List.getD_eq_getElem _ '?' hj']
  exact List.getElem_mem hj'

/-! ## The inner diagonal walk agrees with the spec's accumulators -/

lemma specRightN_one (g : Grid) (offset : Nat) :
    specRightN g offset 1 = [cellD g 0 offset] := by
  simp [specRightN]

lemma specLeftN_one (g : Grid) (offset : Nat) :
    specLeftN g offset 1 = [cellD g 0 offset] := by
  simp [specLeftN]

lemma specRightN_succ (g : Grid) (offset n : Nat) (hn : 1 ≤ n) :
    specRightN g offset (n + 1) =
      specRightN g offset n ++
        (if n + offset < g.length then [cellD g n (n + offset)] else []) := by
  unfold specRightN
  rw [if_neg (by omega), if_neg (by omega)]
  have h1 : n + 1 - 1 = (n - 1) + 1 := by omega
  have h2 : n - 1 + 1 = n := by omega
  rw [h1, List.range_succ, List.map_append, List.filterMap_append]
  simp only [List.map_cons, List.map_nil, h2, List.filterMap_cons, List.filterMap_nil]
  by_cases hc : n + offset < g.length <;> simp [hc]

lemma specLeftN_succ (g : Grid) (offset n : Nat) (hn : 1 ≤ n) :
    specLeftN g offset (n + 1) =
      specLeftN g offset n ++
        (if 0 ≤ (n : Int) + (offset : Int) - 2 ∧ (n : Int) + (offset : Int) - 2 < (g.length : Int)
         then [cellD g n ((n : Int) + (offset : Int) - 2).toNat] else []) := by
  unfold specLeftN
  rw [if_neg (by omega), if_neg (by omega)]
  have h1 : n + 1 - 1 = (n - 1) + 1 := by omega
  have h2 : n - 1 + 1 = n := by omega
  rw [h1, List.range_succ, List.map_append, List.filterMap_append]
  simp only [List.map_cons, List.map_nil, h2, List.filterMap_cons, List.filterMap_nil]
  by_cases hc : 0 ≤ (n : Int) + (offset : Int) - 2 ∧ (n : Int) + (offset : Int) - 2 < (g.length : Int)
  · have hc' : 2 ≤ (n : Int) + (offset : Int) ∧ (n : Int) + (offset : Int) - 2 < (g.length : Int) := by
      omega
    simp [hc, hc']
  · have hc' : ¬(2 ≤ (n : Int) + (offset : Int) ∧ (n : Int) + (offset : Int) - 2 < (g.length : Int)) := by
      omega
    simp [hc, hc']

lemma diagWalk_spec (g : Grid) (hrect : gridRect g) {offset : Nat} (hoff : offset < g.length) :
    ∀ n, n ≤ g.depth →
      diagWalk g offset n = some (specLeftN g offset n, specRightN g offset n) := by
  intro n
  induction n with
  | zero =>
    intro _
    simp [diagWalk, specLeftN, specRightN]
  | succ n ih =>
    intro hn
    have hlt : n < g.depth := by omega
    unfold diagWalk
    rw [ih (by omega), Option.some_bind]
    rcases Nat.eq_zero_or_pos n with h0 | hpos
    · subst h0
      unfold diagStep
      rw [if_pos rfl, cell_eq_some g hrect hlt (by omega : 0 + offset < g.length)]
      simp [specLeftN_one, specRightN_one, specLeftN, specRightN, Nat.zero_add]
    · unfold diagStep
      rw [if_neg (by omega), specLeftN_succ g offset n hpos, specRightN_succ g offset n hpos]
      by_cases hr : n + offset < g.length <;>
        by_cases hl : 0 ≤ (n : Int) + (offset : Int) - 2 ∧ (n : Int) + (offset : Int) - 2 < (g.length : Int)
      · have hlb : ((n : Int) + (offset : Int) - 2).toNat < g.length := by omega
        simp only [if_pos hr, if_pos hl, cell_eq_some g hrect hlt hr,
          cell_eq_some g hrect hlt hlb, Option.map_some', Option.some_bind]
      · simp only [if_pos hr, if_neg hl, cell_eq_some g hrect hlt hr,
          Option.map_some', Option.some_bind, List.append_nil]
      · have hlb : ((n : Int) + (offset : Int) - 2).toNat < g.length := by omega
        simp only [if_neg hr, if_pos hl, cell_eq_some g hrect hlt hlb,
          Option.map_some', Option.some_bind, List.append_nil]
      · simp only [if_neg hr, if_neg hl, Option.some_bind, List.append_nil]

/-- The per-offset block of strings the source adds to the set, written
with the spec's accumulators. -/
def specBlock (g : Grid) (offset : Nat) : List Str :=
  (if specRight g offset ≠ [] then [specRight g offset, (specRight g offset).reverse] else []) ++
  (if specLeft g offset ≠ [] then [specLeft g offset, (specLeft g offset).reverse] else [])

lemma diagAdds_spec (g : Grid) (hrect : gridRect g) {offset : Nat} (hoff : offset < g.length) :
    diagAdds g offset = some (specBlock g offset) := by
  unfold diagAdds specBlock
  rw [diagWalk_spec g hrect hoff g.depth le_rfl]
  rfl

lemma specDiagonal_eq_blocks (g : Grid) :
    specDiagonal g = (((List.range g.length).map (specBlock g)) : List (List Str)).flatten := by
  unfold specDiagonal specBlock
  rfl

lemma diagRawN_spec (g : Grid) (hrect : gridRect g) :
    ∀ n, n ≤ g.length →
      diagRawN g n = some ((((List.range n).map (specBlock g)) : List (List Str)).flatten) := by
  intro n
  induction n with
  | zero => intro _; rfl
  | succ n ih =>
    intro hn
    unfold diagRawN
    rw [ih (by omega), Option.some_bind, diagAdds_spec g hrect (by omega : n < g.length)]
    rw [List.range_succ, List.map_append]
    simp

lemma diagonal_lines_spec (g : Grid) (hrect : gridRect g) :
    g.diagonal_lines = some (specDiagonal g).dedup := by
  unfold Grid.diagonal_lines
  rw [diagRawN_spec g hrect g.length le_rfl, specDiagonal_eq_blocks]
  rfl

/-! ## Columns and vertical lines on a rectangular grid -/

lemma colChars_spec (g : Grid) (hrect : gridRect g) {c : Nat} (hc : c < g.length) :
    ∀ n, n ≤ g.depth →
      colChars g c n = some ((List.range n).map fun r => cellD g r c) := by
  intro n
  induction n with
  | zero => intro _; rfl
  | succ n ih =>
    intro hn
    unfold colChars
    rw [ih (by omega), Option.some_bind, cell_eq_some g hrect (by omega : n < g.depth) hc]
    rw [List.range_succ, List.map_append]
    rfl

/-- The column string of column `c`, as the spec reads it. -/
def specCol (g : Grid) (c : Nat) : Str := (List.range g.depth).map fun r => cellD g r c

lemma vertN_spec (g : Grid) (hrect : gridRect g) :
    ∀ n, n ≤ g.length →
      vertN g n = some ((((List.range n).map fun c => [specCol g c, (specCol g c).reverse]) :
        List (List Str)).flatten) := by
  intro n
  induction n with
  | zero => intro _; rfl
  | succ n ih =>
    intro hn
    unfold vertN
    rw [ih (by omega), Option.some_bind,
      colChars_spec g hrect (by omega : n < g.length) g.depth le_rfl]
    rw [List.range_succ, List.map_append]
    simp [specCol]

lemma vertical_lines_spec (g : Grid) (hrect : gridRect g) :
    g.vertical_lines = some ((((List.range g.length).map fun c => [specCol g c, (specCol g c).reverse]) :
      List (List Str)).flatten) :=
  vertN_spec g hrect g.length le_rfl

lemma lines_spec (g : Grid) (hrect : gridRect g) :
    g.lines = some (
      (((List.range g.length).map fun c => [specCol g c, (specCol g c).reverse]) :
        List (List Str)).flatten ++ g.horizontal_lines ++ (specDiagonal g).dedup) := by
  unfold Grid.lines
  rw [vertical_lines_spec g hrect, Option.some_bind, diagonal_lines_spec g hrect]
  rfl

/-! ## Characterization of the substring test -/

lemma beginsWith_length {w l : Str} (h : beginsWith w l = true) : w.length ≤ l.length := by
  induction w generalizing l with
  | nil => simp
  | cons a as ih =>
    cases l with
    | nil => simp [beginsWith] at h
    | cons b bs =>
      simp only [beginsWith, Bool.and_eq_true, decide_eq_true_eq] at h
      have := ih h.2
      simp only [List.length_cons]
      omega

lemma beginsWith_mem_head {c : Char} {w l : Str} (h : beginsWith (c :: w) l = true) :
    c ∈ l := by
  cases l with
  | nil => simp [beginsWith] at h
  | cons b bs =>
    simp only [beginsWith, Bool.and_eq_true, decide_eq_true_eq] at h
    simp [h.1]

lemma beginsWith_append {w a : Str} (h : beginsWith w a = true) (b : Str) :
    beginsWith w (a ++ b) = true := by
  induction w generalizing a with
  | nil => simp [beginsWith]
  | cons x xs ih =>
    cases a with
    | nil => simp [beginsWith] at h
    | cons y ys =>
      simp only [beginsWith, Bool.and_eq_true, decide_eq_true_eq] at h
      simp only [List.cons_append, beginsWith, Bool.and_eq_true, decide_eq_true_eq]
      exact ⟨h.1, ih h.2⟩

lemma beginsWith_split {w a b : Str} {c : Char}
    (h : beginsWith w (a ++ c :: b) = true) (hc : c ∉ w) :
    beginsWith w a = true := by
  induction w generalizing a with
  | nil => simp [beginsWith]
  | cons x xs ih =>
    cases a with
    | nil =>
      simp only [List.nil_append, beginsWith, Bool.and_eq_true, decide_eq_true_eq] at h
      exact absurd (by simp [h.1]) hc
    | cons y ys =>
      simp only [List.cons_append, beginsWith, Bool.and_eq_true, decide_eq_true_eq] at h
      simp only [beginsWith, Bool.and_eq_true, decide_eq_true_eq]
      exact ⟨h.1, ih h.2 fun hm => hc (List.mem_cons_of_mem _ hm)⟩

lemma occursIn_of_beginsWith {w l : Str} (h : beginsWith w l = true) :
    occursIn w l = true := by
  cases l with
  | nil =>
    cases w with
    | nil => rfl
    | cons _ _ => simp [beginsWith] at h
  | cons c ls => simp [occursIn, h]

lemma occursIn_cons {w l : Str} (c : Char) (h : occursIn w l = true) :
    occursIn w (c :: l) = true := by
  simp [occursIn, h]

lemma occursIn_append_right {w b : Str} (h : occursIn w b = true) (a : Str) :
    occursIn w (a ++ b) = true := by
  induction a with
  | nil => simpa
  | cons x xs ih => simpa [occursIn] using Or.inr ih

lemma occursIn_append_left {w a : Str} (h : occursIn w a = true) (b : Str) :
    occursIn w (a ++ b) = true := by
  induction a with
  | nil =>
    have : w = [] := by simpa [occursIn, List.isEmpty_iff] using h
    subst this
    cases b with
    | nil => rfl
    | cons _ _ => simp [occursIn, beginsWith]
  | cons x xs ih =>
    rw [occursIn, Bool.or_eq_true] at h
    rcases h with h | h
    · exact occursIn_of_beginsWith (beginsWith_append h b)
    · exact occursIn_cons x (ih h)

lemma occursIn_length {w l : Str} (h : occursIn w l = true) : w.length ≤ l.length := by
  induction l with
  | nil =>
    have : w = [] := by simpa [occursIn, List.isEmpty_iff] using h
    simp [this]
  | cons c ls ih =>
    rw [occursIn, Bool.or_eq_true] at h
    rcases h with h | h
    · exact beginsWith_length h
    · have := ih h
      simp only [List.length_cons]
      omega

lemma occursIn_head_mem {c : Char} {w l : Str} (h : occursIn (c :: w) l = true) :
    c ∈ l := by
  induction l with
  | nil => simp [occursIn] at h
  | cons x ls ih =>
    rw [occursIn, Bool.or_eq_true] at h
    rcases h with h | h
    · exact beginsWith_mem_head h
    · exact List.mem_cons_of_mem _ (ih h)

lemma occursIn_split {w a b : Str} {c : Char} (hw : w ≠ []) (hc : c ∉ w)
    (h : occursIn w (a ++ c :: b) = true) :
    occursIn w a = true ∨ occursIn w b = true := by
  induction a with
  | nil =>
    right
    rw [List.nil_append, occursIn, Bool.or_eq_true] at h
    rcases h with h | h
    · cases w with
      | nil => exact absurd rfl hw
      | cons w0 w' =>
        simp only [beginsWith, Bool.and_eq_true, decide_eq_true_eq] at h
        exact absurd (by simp [← h.1]) hc
    · exact h
  | cons x xs ih =>
    rw [List.cons_append, occursIn, Bool.or_eq_true] at h
    rcases h with h | h
    · exact Or.inl (occursIn_of_beginsWith (beginsWith_split h hc))
    · rcases ih h with h | h
      · exact Or.inl (occursIn_cons x h)
      · exact Or.inr h

lemma occursIn_joinSep {w : Str} (hw : w ≠ []) (hsep : '|' ∉ w) :
    ∀ ls : List Str, (∀ s ∈ ls, '|' ∉ s) →
      (occursIn w (joinSep ls) = true ↔ ∃ s ∈ ls, occursIn w s = true) := by
  intro ls
  induction ls with
  | nil =>
    intro _
    constructor
    · intro h
      cases w with
      | nil => exact absurd rfl hw
      | cons _ _ => simp [joinSep, occursIn] at h
    · rintro ⟨s, hs, -⟩
      exact absurd hs (List.not_mem_nil s)
  | cons l rest ih =>
    intro hls
    cases rest with
    | nil =>
      rw [joinSep]
      constructor
      · intro h
        exact ⟨l, by simp, h⟩
      · rintro ⟨s, hs, h⟩
        have : s = l := by simpa using hs
        subst this
        exact h
    | cons l' rest' =>
      rw [joinSep]
      constructor
      · intro h
        rcases occursIn_split hw hsep h with h | h
        · exact ⟨l, by simp, h⟩
        · rcases (ih fun s hs => hls s (List.mem_cons_of_mem _ hs)).mp h with ⟨s, hs, hoc⟩
          exact ⟨s, List.mem_cons_of_mem _ hs, hoc⟩
      · rintro ⟨s, hs, hoc⟩
        rcases List.mem_cons.mp hs with rfl | hs
        · exact occursIn_append_left hoc _
        · have hrest := (ih fun s hs => hls s (List.mem_cons_of_mem _ hs)).mpr ⟨s, hs, hoc⟩
          exact occursIn_append_right (occursIn_cons '|' hrest) l

/-! ## Lengths and characters of the produced lines -/

lemma specRightN_length (g : Grid) (offset n : Nat) :
    (specRightN g offset n).length ≤ n := by
  unfold specRightN
  split
  · simp
  · rename_i hn
    have h1 := List.length_filterMap_le
      (fun i => if i + offset < g.length then some (cellD g i (i + offset)) else none)
      ((List.range (n - 1)).map (· + 1))
    simp only [List.length_map, List.length_range] at h1
    simp only [List.length_cons]
    omega

lemma specLeftN_length (g : Grid) (offset n : Nat) :
    (specLeftN g offset n).length ≤ n := by
  unfold specLeftN
  split
  · simp
  · rename_i hn
    have h1 := List.length_filterMap_le
      (fun (i : Nat) =>
        if 0 ≤ (i : Int) + (offset : Int) - 2 ∧ (i : Int) + (offset : Int) - 2 < (g.length : Int)
        then some (cellD g i ((i : Int) + (offset : Int) - 2).toNat) else none)
      ((List.range (n - 1)).map (· + 1))
    simp only [List.length_map, List.length_range] at h1
    simp only [List.length_cons]
    omega

lemma specRightN_chars (g : Grid) (hrect : gridRect g) {offset n : Nat}
    (hoff : offset < g.length) (hn : n ≤ g.depth) :
    ∀ ch ∈ specRightN g offset n, ch ∈ g.grid.flatten := by
  intro ch hch
  unfold specRightN at hch
  by_cases h0 : n = 0
  · simp [h0] at hch
  · rw [if_neg h0] at hch
    rcases List.mem_cons.mp hch with rfl | hch
    · exact cellD_mem_flatten g hrect (by omega) hoff
    · rcases List.mem_filterMap.mp hch with ⟨i, hi, hf⟩
      rcases List.mem_map.mp hi with ⟨j, hj, rfl⟩
      rw [List.mem_range] at hj
      by_cases hcond : j + 1 + offset < g.length
      · rw [if_pos hcond] at hf
        obtain rfl : cellD g (j + 1) (j + 1 + offset) = ch := Option.some.inj hf
        exact cellD_mem_flatten g hrect (by omega) hcond
      · rw [if_neg hcond] at hf
        exact absurd hf (by simp)

lemma specLeftN_chars (g : Grid) (hrect : gridRect g) {offset n : Nat}
    (hoff : offset < g.length) (hn : n ≤ g.depth) :
    ∀ ch ∈ specLeftN g offset n, ch ∈ g.grid.flatten := by
  intro ch hch
  unfold specLeftN at hch
  by_cases h0 : n = 0
  · simp [h0] at hch
  · rw [if_neg h0] at hch
    rcases List.mem_cons.mp hch with rfl | hch
    · exact cellD_mem_flatten g hrect (by omega) hoff
    · rcases List.mem_filterMap.mp hch with ⟨i, hi, hf⟩
      rcases List.mem_map.mp hi with ⟨j, hj, rfl⟩
      rw [List.mem_range] at hj
      by_cases hcond : 0 ≤ ((j + 1 : Nat) : Int) + (offset : Int) - 2 ∧
          ((j + 1 : Nat) : Int) + (offset : Int) - 2 < (g.length : Int)
      · rw [if_pos hcond] at hf
        obtain rfl : cellD g (j + 1) (((j + 1 : Nat) : Int) + (offset : Int) - 2).toNat = ch :=
          Option.some.inj hf
        exact cellD_mem_flatten g hrect (by omega) (by omega)
      · rw [if_neg hcond] at hf
        exact absurd hf (by simp)

/-- The column string of column `c` has exactly `depth` characters. -/
lemma specCol_length (g : Grid) (c : Nat) : (specCol g c).length = g.depth := by
  simp [specCol]

lemma specCol_chars (g : Grid) (hrect : gridRect g) {c : Nat} (hc : c < g.length) :
    ∀ ch ∈ specCol g c, ch ∈ g.grid.flatten := by
  intro ch hch
  rcases List.mem_map.mp hch with ⟨r, hr, rfl⟩
  rw [List.mem_range] at hr
  exact cellD_mem_flatten g hrect hr hc

/-! ## Membership shape of the three line families -/

lemma mem_hlines {rows : List (List Char)} {s : Str} :
    s ∈ hlines rows ↔ ∃ row ∈ rows, s = row ∨ s = row.reverse := by
  induction rows with
  | nil => simp [hlines]
  | cons row rest ih =>
    simp only [hlines, List.mem_cons, ih]
    constructor
    · rintro (h | h | ⟨r, hr, h2⟩)
      · exact ⟨row, Or.inl rfl, Or.inl h⟩
      · exact ⟨row, Or.inl rfl, Or.inr h⟩
      · exact ⟨r, Or.inr hr, h2⟩
    · rintro ⟨r, hr | hr, h⟩
      · subst hr
        rcases h with h | h
        · exact Or.inl h
        · exact Or.inr (Or.inl h)
      · exact Or.inr (Or.inr ⟨r, hr, h⟩)

lemma mem_specDiagonal {g : Grid} {s : Str} (hs : s ∈ specDiagonal g) :
    ∃ offset < g.length,
      ((specRight g offset ≠ [] ∧ (s = specRight g offset ∨ s = (specRight g offset).reverse)) ∨
       (specLeft g offset ≠ [] ∧ (s = specLeft g offset ∨ s = (specLeft g offset).reverse))) := by
  rw [specDiagonal_eq_blocks, List.mem_flatten] at hs
  obtain ⟨blk, hblk, hsb⟩ := hs
  rcases List.mem_map.mp hblk with ⟨offset, hoff, rfl⟩
  rw [List.mem_range] at hoff
  refine ⟨offset, hoff, ?_⟩
  unfold specBlock at hsb
  rcases List.mem_append.mp hsb with h | h
  · left
    by_cases hne : specRight g offset ≠ []
    · rw [if_pos hne] at h
      exact ⟨hne, by simpa using h⟩
    · rw [if_neg hne] at h
      exact absurd h (List.not_mem_nil s)
  · right
    by_cases hne : specLeft g offset ≠ []
    · rw [if_pos hne] at h
      exact ⟨hne, by simpa using h⟩
    · rw [if_neg hne] at h
      exact absurd h (List.not_mem_nil s)

lemma specDiagonal_rev_mem (g : Grid) {s : Str} (h : s ∈ specDiagonal g) :
    s.reverse ∈ specDiagonal g := by
  rw [specDiagonal_eq_blocks, List.mem_flatten] at h ⊢
  obtain ⟨blk, hblk, hs⟩ := h
  refine ⟨blk, hblk, ?_⟩
  rcases List.mem_map.mp hblk with ⟨offset, -, rfl⟩
  unfold specBlock at hs ⊢
  rcases List.mem_append.mp hs with h | h
  · refine List.mem_append.mpr (Or.inl ?_)
    by_cases hne : specRight g offset ≠ []
    · rw [if_pos hne] at h ⊢
      rcases (by simpa using h : s = specRight g offset ∨ s = (specRight g offset).reverse) with
        rfl | rfl
      · simp
      · simp
    · rw [if_neg hne] at h
      exact absurd h (List.not_mem_nil s)
  · refine List.mem_append.mpr (Or.inr ?_)
    by_cases hne : specLeft g offset ≠ []
    · rw [if_pos hne] at h ⊢
      rcases (by simpa using h : s = specLeft g offset ∨ s = (specLeft g offset).reverse) with
        rfl | rfl
      · simp
      · simp
    · rw [if_neg hne] at h
      exact absurd h (List.not_mem_nil s)

lemma specDiagonal_length_le (g : Grid) {s : Str} (hs : s ∈ specDiagonal g) :
    s.length ≤ g.depth := by
  rcases mem_specDiagonal hs with ⟨offset, -, ⟨-, h | h⟩ | ⟨-, h | h⟩⟩ <;> subst h <;>
    simp [specRight, specLeft, specRightN_length, specLeftN_length]

lemma specDiagonal_chars (g : Grid) (hrect : gridRect g) {s : Str} (hs : s ∈ specDiagonal g) :
    ∀ ch ∈ s, ch ∈ g.grid.flatten := by
  rcases mem_specDiagonal hs with ⟨offset, hoff, ⟨-, h | h⟩ | ⟨-, h | h⟩⟩ <;> subst h <;>
    intro ch hch
  · exact specRightN_chars g hrect hoff le_rfl ch hch
  · exact specRightN_chars g hrect hoff le_rfl ch (List.mem_reverse.mp hch)
  · exact specLeftN_chars g hrect hoff le_rfl ch hch
  · exact specLeftN_chars g hrect hoff le_rfl ch (List.mem_reverse.mp hch)

lemma mem_vlines {g : Grid} {s : Str}
    (hs : s ∈ (((List.range g.length).map fun c => [specCol g c, (specCol g c).reverse]) :
      List (List Str)).flatten) :
    ∃ c < g.length, s = specCol g c ∨ s = (specCol g c).reverse := by
  rw [List.mem_flatten] at hs
  obtain ⟨blk, hblk, hsb⟩ := hs
  rcases List.mem_map.mp hblk with ⟨c, hc, rfl⟩
  rw [List.mem_range] at hc
  refine ⟨c, hc, ?_⟩
  simpa using hsb

lemma mem_lines_cases (g : Grid) (hrect : gridRect g) {ls : List Str}
    (hl : g.lines = some ls) {s : Str} (hs : s ∈ ls) :
    (∃ c < g.length, s = specCol g c ∨ s = (specCol g c).reverse) ∨
    (∃ row ∈ g.grid, s = row ∨ s = row.reverse) ∨ s ∈ specDiagonal g := by
  rw [lines_spec g hrect] at hl
  injection hl with hl
  subst hl
  rcases List.mem_append.mp hs with hs2 | hs2
  · rcases List.mem_append.mp hs2 with hs3 | hs3
    · exact Or.inl (mem_vlines hs3)
    · exact Or.inr (Or.inl (mem_hlines.mp hs3))
  · exact Or.inr (Or.inr (List.mem_dedup.mp hs2))

lemma lines_length_le (g : Grid) (hrect : gridRect g) {ls : List Str}
    (hl : g.lines = some ls) : ∀ s ∈ ls, s.length ≤ g.max_size := by
  intro s hs
  rcases mem_lines_cases g hrect hl hs with ⟨c, -, h | h⟩ | ⟨row, hrow, h | h⟩ | h
  · rw [h, specCol_length]
    exact le_max_right _ _
  · rw [h, List.length_reverse, specCol_length]
    exact le_max_right _ _
  · rw [h, hrect.2 row hrow]
    exact le_max_left _ _
  · rw [h, List.length_reverse, hrect.2 row hrow]
    exact le_max_left _ _
  · exact le_trans (specDiagonal_length_le g h) (le_max_right _ _)

lemma lines_chars (g : Grid) (hrect : gridRect g) {ls : List Str}
    (hl : g.lines = some ls) : ∀ s ∈ ls, ∀ ch ∈ s, ch ∈ g.grid.flatten := by
  intro s hs
  rcases mem_lines_cases g hrect hl hs with ⟨c, hc, h | h⟩ | ⟨row, hrow, h | h⟩ | h
  · intro ch hch
    rw [h] at hch
    exact specCol_chars g hrect hc ch hch
  · intro ch hch
    rw [h] at hch
    exact specCol_chars g hrect hc ch (List.mem_reverse.mp hch)
  · intro ch hch
    rw [h] at hch
    exact List.mem_flatten.mpr ⟨row, hrow, hch⟩
  · intro ch hch
    rw [h] at hch
    exact List.mem_flatten.mpr ⟨row, hrow, List.mem_reverse.mp hch⟩
  · exact specDiagonal_chars g hrect h

/-! ## The word filter pipeline -/

/-- The first-letter test of `filter_by_letters`, as a total predicate on
non-empty words. -/
def firstIn (letters : List Char) : Str → Bool
  | [] => false
  | c :: _ => c ∈ letters

lemma filter_by_letters_ok (letters : List Char) :
    ∀ ws : List Str, (∀ w ∈ ws, w ≠ []) →
      filter_by_letters ws letters = .ok (ws.filter (firstIn letters)) := by
  intro ws
  induction ws with
  | nil => intro _; rfl
  | cons w rest ih =>
    intro h
    cases w with
    | nil => exact absurd rfl (h [] (by simp))
    | cons c w' =>
      have hr := ih fun x hx => h x (List.mem_cons_of_mem _ hx)
      simp only [filter_by_letters, hr, List.filter_cons]
      by_cases hc : c ∈ letters <;> simp [firstIn, hc, Except.map]

lemma find_words_ok_aux (g : Grid) {ws ls : List Str}
    (hl : g.lines = some ls) (hmax : 1 ≤ g.max_size) :
    find_words g (.ok ws) =
      (filter_by_letters (filter_by_length ws g.max_size) g.letters).map
        fun ws2 => ws2.filter fun w => occursIn w (joinSep ls) := by
  unfold find_words
  rw [if_neg (by omega), hl]
  rfl

lemma find_words_ok (g : Grid) {ws ls : List Str}
    (hl : g.lines = some ls) (hmax : 1 ≤ g.max_size)
    (hws : ∀ w ∈ ws, w ≠ []) :
    find_words g (.ok ws) =
      .ok (((filter_by_length ws g.max_size).filter (firstIn g.letters)).filter
        fun w => occursIn w (joinSep ls)) := by
  have hne : ∀ w ∈ filter_by_length ws g.max_size, w ≠ [] := by
    intro w hw
    unfold filter_by_length at hw
    exact hws w (List.mem_filter.mp hw).1
  rw [find_words_ok_aux g hl hmax,
    filter_by_letters_ok g.letters (filter_by_length ws g.max_size) hne]
  rfl

/-! ## Concrete grids used to instantiate the theorems -/

/-- A 2×2 rectangular sample grid: rows "ab", "cd". -/
def gridAB : Grid := ⟨[['a', 'b'], ['c', 'd']], 2, 2⟩

/-- A 1-row sample grid: row "abc". -/
def gridRow : Grid := ⟨[['a', 'b', 'c']], 3, 1⟩

/-- The empty 0×0 grid. -/
def gridEmpty : Grid := ⟨[], 0, 0⟩

lemma hlines_length (rows : List (List Char)) : (hlines rows).length = 2 * rows.length := by
  induction rows with
  | nil => rfl
  | cons row rest ih =>
    simp only [hlines, List.length_cons, ih]
    omega

lemma hlines_get (rows : List (List Char)) :
    ∀ i, i < rows.length →
      (hlines rows)[2 * i]? = some (rows.getD i []) ∧
      (hlines rows)[2 * i + 1]? = some (rows.getD i []).reverse := by
  induction rows with
  | nil =>
    intro i h
    simp at h
  | cons row rest ih =>
    intro i h
    cases i with
    | zero => exact ⟨by norm_num [hlines], by norm_num [hlines]⟩
    | succ j =>
      have hj : j < rest.length := by
        simp only [List.length_cons] at h
        omega
      have h2 : 2 * (j + 1) = 2 * j + 1 + 1 := by omega
      rw [h2]
      show (row :: row.reverse :: hlines rest)[2 * j + 1 + 1]? = _ ∧
        (row :: row.reverse :: hlines rest)[2 * j + 1 + 1 + 1]? = _
      simp only [List.getElem?_cons_succ, List.getD_cons_succ]
      exact ih j hj

/-! ## The claims -/

/-- C1: for every rectangular grid, `Grid.diagonal_lines` returns exactly
the set of strings produced by the spec's diagonal algorithm (`specDiagonal`):
for each offset, seed both accumulators with `grid[0][offset]`, walk the rows
appending `grid[i][i+offset]` to the right accumulator when in range and
`grid[i][i+offset-2]` to the left accumulator when in range, then add each
non-empty accumulator and its reverse to the result set. -/
theorem diagonal_lines_matches_spec (g : Grid) (hrect : gridRect g) :
    ∃ d, g.diagonal_lines = some d ∧ ∀ s : Str, s ∈ d ↔ s ∈ specDiagonal g := by
  refine ⟨(specDiagonal g).dedup, diagonal_lines_spec g hrect, ?_⟩
  intro s
  exact List.mem_dedup

theorem diagonal_lines_matches_spec_witness :
    ∃ d, gridAB.diagonal_lines = some d ∧ ∀ s : Str, s ∈ d ↔ s ∈ specDiagonal gridAB :=
  diagonal_lines_matches_spec gridAB (by decide)

/-- C3 counterexample: constructing a Grid from a single row of length 2
with declared width 5 and height 7 does not fail with any error:
`Grid.__init__` returns a grid normally although the shape is invalid. -/
theorem grid_init_accepts_invalid_shape_cex :
    Grid.init [['a', 'b']] 5 7 = { grid := [['a', 'b']], length := 5, depth := 7 } ∧
    ¬ gridRect (Grid.init [['a', 'b']] 5 7) :=
  ⟨rfl, by decide⟩

/-- C3 (amended): Grid construction never fails and performs no shape
validation: `__init__` stores `grid`, `length` and `depth` exactly as
passed, whatever their shape. -/
theorem grid_init_never_fails (rows : List (List Char)) (length depth : Nat) :
    Grid.init rows length depth = { grid := rows, length := length, depth := depth } := rfl

/-- C4 (code bug): a zero-length word makes the letter filter evaluate
`word[0]`, which raises `IndexError` — an out-of-bounds fault, not an
`EmptyWordError`, and the word is not skipped; `find_words` on a source
containing an empty word propagates that fault. -/
theorem filters_crash_on_empty_word :
    filter_by_letters [([] : Str)] (Grid.letters gridRow) = .error .indexError ∧
    find_words gridRow (.ok [[]]) = .error .indexError := ⟨rfl, rfl⟩

/-- C5 counterexample: on the degenerate 0×0 grid, a search over a path
that names no existing file returns `.ok []` instead of failing with the
source error: the `max_size < 1` guard returns before the lazily created
word source would raise. -/
theorem search_missing_file_empty_grid_cex :
    search gridEmpty (fun _ => none) ['p'] = .ok [] := rfl

/-- C5 (amended): for every rectangular grid with `max_size ≥ 1`, a search
over a path that does not name an existing readable plain file fails with
the source-unavailable error and returns no partial results. -/
theorem search_missing_file_fails (g : Grid) (fs : Str → Option (List Str)) (path : Str)
    (hrect : gridRect g) (hmax : 1 ≤ g.max_size) (hfs : fs path = none) :
    search g fs path = .error .sourceUnavailable := by
  unfold search read_words
  rw [hfs]
  unfold find_words
  rw [if_neg (by omega), lines_spec g hrect]
  rfl

theorem search_missing_file_fails_witness :
    search gridAB (fun _ => none) ['p'] = .error .sourceUnavailable :=
  search_missing_file_fails gridAB (fun _ => none) ['p'] (by decide) (by decide) rfl

/-- C6: a grid with `max_size < 1` makes `find_words` return the empty list
immediately for every word source, including a source that raises as soon
as it is iterated (the `.error` case): the source is never consumed. -/
theorem find_words_degenerate_grid_empty (g : Grid) (source : Except Err (List Str))
    (h : g.max_size < 1) : find_words g source = .ok [] := by
  unfold find_words
  rw [if_pos h]

theorem find_words_degenerate_grid_empty_witness :
    find_words gridEmpty (.error .sourceUnavailable) = .ok [] :=
  find_words_degenerate_grid_empty gridEmpty (.error .sourceUnavailable) (by decide)

/-- C7: for a rectangular grid of height `h = depth`, `horizontal_lines`
has exactly `2h` entries; entry `2i` is row `i` read left-to-right and
entry `2i+1` is its exact reverse. -/
theorem horizontal_lines_pairing (g : Grid) (hrect : gridRect g) :
    (g.horizontal_lines).length = 2 * g.depth ∧
    ∀ i, i < g.depth →
      (g.horizontal_lines)[2 * i]? = some (g.grid.getD i []) ∧
      (g.horizontal_lines)[2 * i + 1]? = some (g.grid.getD i []).reverse := by
  have hlen := hrect.1
  constructor
  · rw [Grid.horizontal_lines, hlines_length, hlen]
  · intro i hi
    exact hlines_get g.grid i (by omega)

theorem horizontal_lines_pairing_witness :
    (gridAB.horizontal_lines).length = 2 * gridAB.depth ∧
    ∀ i, i < gridAB.depth →
      (gridAB.horizontal_lines)[2 * i]? = some (gridAB.grid.getD i []) ∧
      (gridAB.horizontal_lines)[2 * i + 1]? = some (gridAB.grid.getD i []).reverse :=
  horizontal_lines_pairing gridAB (by decide)

/-- C8: for every rectangular grid, `diagonal_lines` contains no duplicate
strings and is closed under reversal: every member's reverse is a member. -/
theorem diagonal_lines_nodup_rev_closed (g : Grid) (hrect : gridRect g) :
    ∃ d, g.diagonal_lines = some d ∧ d.Nodup ∧ ∀ s ∈ d, s.reverse ∈ d := by
  refine ⟨(specDiagonal g).dedup, diagonal_lines_spec g hrect, List.nodup_dedup _, ?_⟩
  intro s hs
  exact List.mem_dedup.mpr (specDiagonal_rev_mem g (List.mem_dedup.mp hs))

theorem diagonal_lines_nodup_rev_closed_witness :
    ∃ d, gridAB.diagonal_lines = some d ∧ d.Nodup ∧ ∀ s ∈ d, s.reverse ∈ d :=
  diagonal_lines_nodup_rev_closed gridAB (by decide)

/-- C9: on a rectangular grid every string of `lines` — and of
`horizontal_lines`, `vertical_lines` and `diagonal_lines` individually —
has length at most `max_size = max(length, depth)`; hence no word longer
than `max_size` occurs as a substring of a single line. -/
theorem lines_length_bounded (g : Grid) (hrect : gridRect g) :
    ∃ v d ls, g.vertical_lines = some v ∧ g.diagonal_lines = some d ∧ g.lines = some ls ∧
      (∀ s ∈ g.horizontal_lines, s.length ≤ g.max_size) ∧
      (∀ s ∈ v, s.length ≤ g.max_size) ∧
      (∀ s ∈ d, s.length ≤ g.max_size) ∧
      (∀ s ∈ ls, s.length ≤ g.max_size) ∧
      ∀ w s, s ∈ ls → occursIn w s = true → w.length ≤ g.max_size := by
  refine ⟨_, _, _, vertical_lines_spec g hrect, diagonal_lines_spec g hrect,
    lines_spec g hrect, ?_, ?_, ?_, ?_, ?_⟩
  · intro s hs
    rcases mem_hlines.mp hs with ⟨row, hrow, h | h⟩
    · rw [h, hrect.2 row hrow]
      exact le_max_left _ _
    · rw [h, List.length_reverse, hrect.2 row hrow]
      exact le_max_left _ _
  · intro s hs
    rcases mem_vlines hs with ⟨c, -, h | h⟩
    · rw [h, specCol_length]
      exact le_max_right _ _
    · rw [h, List.length_reverse, specCol_length]
      exact le_max_right _ _
  · intro s hs
    exact le_trans (specDiagonal_length_le g (List.mem_dedup.mp hs)) (le_max_right _ _)
  · exact lines_length_le g hrect (lines_spec g hrect)
  · intro w s hs hocc
    exact le_trans (occursIn_length hocc) (lines_length_le g hrect (lines_spec g hrect) s hs)

theorem lines_length_bounded_witness :
    ∃ v d ls, gridAB.vertical_lines = some v ∧ gridAB.diagonal_lines = some d ∧
      gridAB.lines = some ls ∧
      (∀ s ∈ gridAB.horizontal_lines, s.length ≤ gridAB.max_size) ∧
      (∀ s ∈ v, s.length ≤ gridAB.max_size) ∧
      (∀ s ∈ d, s.length ≤ gridAB.max_size) ∧
      (∀ s ∈ ls, s.length ≤ gridAB.max_size) ∧
      ∀ w s, s ∈ ls → occursIn w s = true → w.length ≤ gridAB.max_size :=
  lines_length_bounded gridAB (by decide)

/-- C10: under rectangularity every cell access performed by
`diagonal_lines` and `vertical_lines` is in bounds: both Option-valued
embeddings (where `none` is the `IndexError` branch) return a value, so the
out-of-bounds branch — including for the unguarded seed access
`grid[0][offset]` — is unreachable. -/
theorem grid_accesses_in_bounds (g : Grid) (hrect : gridRect g) :
    (g.diagonal_lines).isSome = true ∧ (g.vertical_lines).isSome = true := by
  rw [diagonal_lines_spec g hrect, vertical_lines_spec g hrect]
  exact ⟨rfl, rfl⟩

theorem grid_accesses_in_bounds_witness :
    (gridAB.diagonal_lines).isSome = true ∧ (gridAB.vertical_lines).isSome = true :=
  grid_accesses_in_bounds gridAB (by decide)

/-- C2 (amended): for every rectangular grid none of whose cells is the
separator character, and every source whose words are non-empty and free of
the separator, `find_words` returns exactly the source words that occur as
a contiguous substring of some line of `grid.lines`, in source order with
duplicates preserved; under these conditions no word can match across the
boundary between two joined lines. -/
theorem find_words_exact (g : Grid) (ws ls : List Str)
    (hrect : gridRect g) (hl : g.lines = some ls)
    (hsep : '|' ∉ g.grid.flatten)
    (hws : ∀ w ∈ ws, w ≠ [] ∧ '|' ∉ w) :
    find_words g (.ok ws) = .ok (ws.filter fun w => ls.any fun s => occursIn w s) := by
  by_cases hmax : 1 ≤ g.max_size
  · have hlsep : ∀ s ∈ ls, '|' ∉ s := fun s hs hmem =>
      hsep (lines_chars g hrect hl s hs '|' hmem)
    rw [find_words_ok g hl hmax fun w hw => (hws w hw).1]
    unfold filter_by_length
    rw [List.filter_filter, List.filter_filter]
    apply congrArg
    apply List.filter_congr
    intro w hw
    obtain ⟨hwne, hwsep⟩ := hws w hw
    by_cases hocc : occursIn w (joinSep ls) = true
    · obtain ⟨s, hsls, hos⟩ := (occursIn_joinSep hwne hwsep ls hlsep).mp hocc
      have hany : (ls.any fun s => occursIn w s) = true := List.any_eq_true.mpr ⟨s, hsls, hos⟩
      have hlen : w.length ≤ g.max_size :=
        le_trans (occursIn_length hos) (lines_length_le g hrect hl s hsls)
      have hfst : firstIn g.letters w = true := by
        cases w with
        | nil => exact absurd rfl hwne
        | cons c w' =>
          have hc : c ∈ g.grid.flatten :=
            lines_chars g hrect hl s hsls c (occursIn_head_mem hos)
          simp [firstIn, Grid.letters, List.mem_dedup, hc]
      rw [hocc, hany, hfst]
      simp [hlen]
    · have hany : (ls.any fun s => occursIn w s) = false := by
        rw [Bool.eq_false_iff]
        intro hany
        obtain ⟨s, hsls, hos⟩ := List.any_eq_true.mp hany
        exact hocc ((occursIn_joinSep hwne hwsep ls hlsep).mpr ⟨s, hsls, hos⟩)
      rw [Bool.not_eq_true] at hocc
      rw [hocc, hany]
      simp
  · have hlen0 : g.length = 0 := by
      unfold Grid.max_size at hmax
      omega
    have hdep0 : g.depth = 0 := by
      unfold Grid.max_size at hmax
      omega
    have hls : ls = [] := by
      have h0 : g.lines = some [] := by
        unfold Grid.lines Grid.vertical_lines Grid.diagonal_lines Grid.horizontal_lines
        have hrows : g.grid = [] := List.eq_nil_of_length_eq_zero (by rw [hrect.1, hdep0])
        rw [hlen0, hrows]
        rfl
      rw [h0] at hl
      exact (Option.some.inj hl).symm
    subst hls
    unfold find_words
    rw [if_pos (by unfold Grid.max_size; omega)]
    simp

theorem find_words_exact_witness :
    find_words gridAB (.ok [['a', 'b'], ['z', 'z']]) =
      .ok ([['a', 'b'], ['z', 'z']].filter fun w =>
        ([['a', 'c'], ['c', 'a'], ['b', 'd'], ['d', 'b'],
          ['a', 'b'], ['b', 'a'], ['c', 'd'], ['d', 'c'],
          ['a', 'd'], ['d', 'a'], ['a'], ['b'], ['b', 'c'], ['c', 'b']] : List Str).any
          fun s => occursIn w s) :=
  find_words_exact gridAB [['a', 'b'], ['z', 'z']]
    [['a', 'c'], ['c', 'a'], ['b', 'd'], ['d', 'b'],
     ['a', 'b'], ['b', 'a'], ['c', 'd'], ['d', 'c'],
     ['a', 'd'], ['d', 'a'], ['a'], ['b'], ['b', 'c'], ['c', 'b']]
    (by decide) rfl (by decide) (by decide)

/-- C2 counterexample: on the 1×3 grid "abc" the word "a|a" is returned by
`find_words` although it occurs in no line of the grid: it matches the
joined corpus across a separator boundary. -/
theorem find_words_cross_boundary_cex :
    find_words gridRow (.ok [['a', '|', 'a']]) = .ok [['a', '|', 'a']] ∧
    (gridRow.lines).isSome = true ∧
    ∀ s ∈ (gridRow.lines).getD [], occursIn ['a', '|', 'a'] s = false := by
  refine ⟨rfl, rfl, ?_⟩
  decide

end Puzzle
